import Mathlib

/-!
# Verification of the NomsBlockStore chunk-store façade

A shallow embedding of the `nbs` package's `NomsBlockStore` (the content
addressed chunk store behind dolt's versioned data repository), together
with proofs of the specification's claims about it.

The façade itself (`Put`, `addChunk`, `Get`, `Root`, `Rebase`, `Commit`,
`updateManifest`, `GetChunkLocations`) is translated directly from the
source. Its collaborators — the memtable, the table set, the manifest
manager and the conjoiner — are declared elsewhere in the repository, so
they are modelled from the specification (sections 4.1 to 4.6), as noted
on each definition.

Bytes are modelled as `List Nat` and 20-byte addresses/hashes as `Nat`;
the content hash `H` is an injective encoding, matching the spec's
assumption that the cryptographic hash is collision-free.
-/

/-- Byte strings, modelled as lists of naturals. -/
abbrev Bytes := List Nat

/-- 20-byte addresses / hashes, modelled as naturals. -/
abbrev Addr := Nat

/-- The repository's fixed content hash `H`.  Modelled as an injective
encoding of the byte string, matching the spec's collision-freeness
assumption for the cryptographic digest. -/
def H (bs : Bytes) : Nat :=
  bs.foldr (fun b acc => Nat.pair b acc + 1) 0

theorem H_injective : Function.Injective H := by
  intro as bs h
  induction as generalizing bs with
  | nil =>
    cases bs with
    | nil => rfl
    | cons b bs => simp [H] at h
  | cons a as ih =>
    cases bs with
    | nil => simp [H] at h
    | cons b bs =>
      simp only [H, List.foldr] at h
      have h' := Nat.succ_injective h
      have hp := Nat.pair_eq_pair.mp h'
      have := @ih bs (by simpa [H] using hp.2)
      simp [hp.1, this]

/-- A chunk: an `(address, bytes)` pair, as in `chunks.Chunk`. -/
structure Chunk where
  hash : Addr
  data : Bytes
deriving DecidableEq

/-- `chunks.NewChunk`: computes the address from the content. -/
def NewChunk (data : Bytes) : Chunk := ⟨H data, data⟩

/-- `chunks.NewChunkWithHash`: pairs caller-supplied hash with data. -/
def NewChunkWithHash (h : Addr) (data : Bytes) : Chunk := ⟨h, data⟩

/-- `chunks.EmptyChunk`: the chunk of the empty byte string. -/
def EmptyChunk : Chunk := NewChunk []

/-- Modelled from the spec (§4.1 Memtable; the `memTable` type is not in
the source under verification): a write buffer bounded by a byte budget,
keeping a hash table of its chunks in insertion order; `count()` is the
distinct chunk count, so an address already present is not stored twice. -/
structure MemTable where
  maxData : Nat
  pending : List (Addr × Bytes)
  totalData : Nat
deriving DecidableEq

/-- Modelled from the spec: a fresh, empty memtable with the given byte
budget. -/
def newMemTable (size : Nat) : MemTable := ⟨size, [], 0⟩

/-- Modelled from the spec: hash-table lookup of a chunk by address. -/
def MemTable.lookup (mt : MemTable) (a : Addr) : Option Bytes :=
  (mt.pending.find? (fun p => p.1 = a)).map (·.2)

/-- Modelled from the spec: `addChunk(a, bytes)` returns true iff the
chunk fit in the byte budget; an address already present is deduplicated
and reported as fitting. -/
def MemTable.addChunk (mt : MemTable) (a : Addr) (data : Bytes) :
    MemTable × Bool :=
  match mt.lookup a with
  | some _ => (mt, true)
  | none =>
    if mt.maxData < mt.totalData + data.length then (mt, false)
    else
      ({ mt with
          pending := mt.pending ++ [(a, data)]
          totalData := mt.totalData + data.length }, true)

/-- Modelled from the spec: `get(a)` via the hash table. -/
def MemTable.get (mt : MemTable) (a : Addr) : Option Bytes := mt.lookup a

/-- Modelled from the spec: `count()` returns the distinct chunk count. -/
def MemTable.count (mt : MemTable) : Nat := mt.pending.length

/-- A byte range inside a table file (`nbs.Range`). -/
structure Range where
  offset : Nat
  length : Nat
deriving DecidableEq

/-- Modelled from the spec (§3 Table file, §4.4; the concrete
`chunkSource` implementations are not in the source under verification):
an immutable table of chunks addressable by content hash, with a
content-derived name. -/
structure ChunkSource where
  name : Addr
  chunks : List (Addr × Bytes)
deriving DecidableEq

/-- Modelled from the spec: look a chunk up in a table. -/
def ChunkSource.get (cs : ChunkSource) (a : Addr) : Option Bytes :=
  (cs.chunks.find? (fun p => p.1 = a)).map (·.2)

/-- Modelled from the spec: chunk count of a table. -/
def ChunkSource.count (cs : ChunkSource) : Nat := cs.chunks.length

/-- Modelled from the spec (§6 table file format): each chunk record is
`{u32 dataLen, byte[20] address, byte[dataLen] data}` laid out in
insertion order, so a chunk's offset is the prefix-sum of the framed
record sizes before it. -/
def ChunkSource.ranges (cs : ChunkSource) : List (Addr × Range) :=
  (cs.chunks.foldl
    (fun st p =>
      (st.1 + 24 + p.2.length, st.2 ++ [(p.1, ⟨st.1, p.2.length⟩)]))
    ((0, []) : Nat × List (Addr × Range))).2

/-- Modelled from the spec (§4.4): find the byte range of a requested
address inside a table, if present. -/
def ChunkSource.findRange (cs : ChunkSource) (a : Addr) : Option Range :=
  ((cs.ranges).find? (fun p => p.1 = a)).map (·.2)

/-- Modelled from the spec (§3): a table file's name is derived from its
contents, so it is content-addressed. -/
def tableName (chunks : List (Addr × Bytes)) : Addr :=
  H (chunks.map (fun p => Nat.pair p.1 (H p.2)))

/-- A manifest table spec: `(tableHash, chunkCount)` (`nbs.tableSpec`). -/
structure TableSpec where
  name : Addr
  chunkCount : Nat
deriving DecidableEq

/-- Manifest contents `{version, lock, root, specs}`
(`nbs.manifestContents`); the version string is modelled as a natural. -/
structure ManifestContents where
  vers : Nat
  lock : Nat
  root : Addr
  specs : List TableSpec
deriving DecidableEq

/-- The zero manifest contents, the Go zero value `manifestContents{}`. -/
def emptyManifest : ManifestContents := ⟨0, 0, 0, []⟩

/-- Injective encoding of a spec list, used by the lock hash. -/
def encodeSpecs (specs : List TableSpec) : Nat :=
  specs.foldr (fun s acc => Nat.pair (Nat.pair s.name s.chunkCount) acc + 1) 0

/-- `nbs.generateLockHash(root, specs)`: a cryptographic commitment to the
root and the spec list; modelled as an injective (hence collision-free)
encoding, never equal to the zero lock `0`. -/
def generateLockHash (root : Addr) (specs : List TableSpec) : Nat :=
  Nat.pair root (encodeSpecs specs) + 1

/-- Modelled from the spec (§3, §4.2 Table set; the `tableSet` type is
not in the source under verification): the read stack of novel and
upstream tables, each layer newest-first. -/
structure TableSet where
  novel : List ChunkSource
  upstream : List ChunkSource
deriving DecidableEq

/-- Modelled from the spec: the empty table set (`newTableSet`). -/
def newTableSet : TableSet := ⟨[], []⟩

/-- Modelled from the spec: number of novel tables (`tableSet.Novel`). -/
def TableSet.Novel (ts : TableSet) : Nat := ts.novel.length

/-- Modelled from the spec: probe a stack of tables in order, stopping at
the first hit. -/
def sourcesGet : List ChunkSource → Addr → Option Bytes
  | [], _ => none
  | cs :: rest, a =>
    match cs.get a with
    | some data => some data
    | none => sourcesGet rest a

/-- Modelled from the spec: `get` probes layers newest-first — novel
tables before upstream tables, each list head-first. -/
def TableSet.get (ts : TableSet) (a : Addr) : Option Bytes :=
  sourcesGet (ts.novel ++ ts.upstream) a

/-- Modelled from the spec: `Prepend` seals a memtable into a new novel
in-memory table pushed on top of the novel layer. -/
def TableSet.Prepend (ts : TableSet) (mt : MemTable) : TableSet :=
  { ts with novel := ⟨tableName mt.pending, mt.pending⟩ :: ts.novel }

/-- Modelled from the spec: `Rebase(specs)` reconciles the upstream layer
against a manifest spec list, opening each named table from persisted
storage (`persisted`), and preserves the novel layer. -/
def TableSet.Rebase (ts : TableSet) (persisted : List ChunkSource)
    (specs : List TableSpec) : TableSet :=
  { ts with
      upstream := specs.map (fun s =>
        ((persisted.find? (fun cs => cs.name = s.name)).getD ⟨s.name, []⟩)) }

/-- Modelled from the spec: `Flatten` merges novel tables into the
upstream layer after a successful commit. -/
def TableSet.Flatten (ts : TableSet) : TableSet :=
  ⟨[], ts.novel ++ ts.upstream⟩

/-- Modelled from the spec: `ToSpecs` returns the manifest-ready spec
list for every table in the set. -/
def TableSet.ToSpecs (ts : TableSet) : List TableSpec :=
  (ts.novel ++ ts.upstream).map (fun cs => ⟨cs.name, cs.count⟩)

/-- The in-memory state of `nbs.NomsBlockStore` that the claims concern:
the memtable, the table set, the last observed manifest contents and the
memtable byte budget (`mtSize`), plus `putCount`. -/
structure NBS where
  mt : Option MemTable
  tables : TableSet
  upstream : ManifestContents
  mtSize : Nat
  putCount : Nat
deriving DecidableEq

/-- `NomsBlockStore.addChunk` (source lines 422–434): add to the current
memtable, allocating it lazily; if the memtable rejects the chunk,
prepend it to the novel tables, allocate a fresh memtable and retry the
add exactly once. -/
def NBS.addChunk (nbs : NBS) (h : Addr) (data : Bytes) : NBS × Bool :=
  let mt := nbs.mt.getD (newMemTable nbs.mtSize)
  let r := mt.addChunk h data
  if r.2 then ({ nbs with mt := some r.1 }, true)
  else
    let tables1 := nbs.tables.Prepend mt
    let r2 := (newMemTable nbs.mtSize).addChunk h data
    ({ nbs with tables := tables1, mt := some r2.1 }, r2.2)

/-- `NomsBlockStore.Put` (source lines 406–420): add the chunk under the
address `c.Hash()`; on success bump `putCount`, on failure report the
`failed to add chunk` error (the `Bool` is success; the error is the
only failure). -/
def NBS.Put (nbs : NBS) (c : Chunk) : NBS × Bool :=
  let r := nbs.addChunk c.hash c.data
  if r.2 then ({ r.1 with putCount := r.1.putCount + 1 }, true)
  else (r.1, false)

/-- `NomsBlockStore.Get` (source lines 436–478): probe the memtable
first; on a miss fall through to the table set; return the empty chunk
when the address is absent everywhere. The modelled lookups are pure, so
the source's error paths (backend I/O failures) cannot arise. -/
def NBS.Get (nbs : NBS) (h : Addr) : Chunk :=
  let a := h
  match nbs.mt.bind (fun m => m.get a) with
  | some data => NewChunkWithHash h data
  | none =>
    match nbs.tables.get a with
    | some data => NewChunkWithHash h data
    | none => EmptyChunk

/-- `nbs.preflushChunkCount` (source line 137): memtables holding more
than this many chunks are flushed outside the commit lock. -/
def preflushChunkCount : Nat := 8

/-- `nbs.defaultMaxTables` (source line 133): upstream table count above
which the conjoiner fires. -/
def defaultMaxTables : Nat := 256

/-- The internal error values of `updateManifest` (source lines
789–793): `errLastRootMismatch`, `errOptimisticLockFailedRoot` and
`errOptimisticLockFailedTables`. -/
inductive CommitErr where
  | lastRootMismatch
  | lockFailedRoot
  | lockFailedTables
deriving DecidableEq

/-- The world a `NomsBlockStore` acts on: the store's in-memory state,
the durable manifest record (`none` while no manifest has been written),
the manifest manager's in-process cache (spec §4.5), and the set of
table files written by the persister, addressable by name (spec §4.3). -/
structure World where
  nbs : NBS
  manifest : Option ManifestContents
  mmCache : Option ManifestContents
  persisted : List ChunkSource
deriving DecidableEq

/-- Modelled from the spec (§4.5; the manifest manager is not in the
source under verification): `updateWillFail(prevLock)` returns the cached
contents and whether an update against `prevLock` is already doomed —
exactly when a manifest has been cached whose lock differs. -/
def World.updateWillFail (w : World) (prevLock : Nat) :
    Option ManifestContents × Bool :=
  match w.mmCache with
  | some cached => (some cached, decide (cached.lock ≠ prevLock))
  | none => (none, false)

/-- Modelled from the spec (§4.5): the backend CAS.
`Update(prevLock, newContents)` installs `newContents` iff the durable
lock (zero when no manifest exists) equals `prevLock`, and returns the
winning contents, which the in-process cache remembers. -/
def World.mmUpdate (w : World) (prevLock : Nat)
    (newContents : ManifestContents) : World × ManifestContents :=
  let cur := w.manifest.getD emptyManifest
  if cur.lock = prevLock then
    ({ w with manifest := some newContents, mmCache := some newContents },
      newContents)
  else
    ({ w with mmCache := some cur }, cur)

/-- `NomsBlockStore.Rebase` (source lines 690–709): fetch the manifest;
when it exists, install it as the upstream view and rebase the table set
onto its specs.  The fetch refreshes the manifest cache (spec §4.5). -/
def World.Rebase (w : World) : World :=
  match w.manifest with
  | none => w
  | some contents =>
    { w with
        nbs := { w.nbs with
                  upstream := contents
                  tables := w.nbs.tables.Rebase w.persisted contents.specs }
        mmCache := some contents }

/-- `NomsBlockStore.Root` (source lines 711–715): the root of the last
observed manifest contents. -/
def World.Root (w : World) : Addr := w.nbs.upstream.root

/-- Modelled from the spec (§4.6; `inlineConjoiner` is not in the source
under verification): `ConjoinRequired` fires when the upstream table
count crosses the threshold. -/
def conjoinRequired (ts : TableSet) : Bool :=
  decide (defaultMaxTables < ts.upstream.length)

/-- Modelled from the spec (§4.6; the conjoiner mechanism is not in the
source under verification): merge upstream tables into one through the
persister and rewrite the manifest, keeping the same root, inside the
commit lock.  The selected subset is modelled as the whole upstream
layer; the claims under verification never reach this branch. -/
def World.conjoin (w : World) : World :=
  let all := w.nbs.tables.upstream.foldr (fun cs acc => cs.chunks ++ acc) []
  let merged : ChunkSource := ⟨tableName all, all⟩
  let newSpecs : List TableSpec := [⟨merged.name, merged.count⟩]
  let nc : ManifestContents :=
    ⟨w.nbs.upstream.vers, generateLockHash w.nbs.upstream.root newSpecs,
      w.nbs.upstream.root, newSpecs⟩
  { w with
      manifest := some nc
      mmCache := some nc
      persisted := merged :: w.persisted
      nbs := { w.nbs with upstream := nc } }

/-- The pre-flush step at `Commit` entry (source lines 737–761): outside
the commit lock, a memtable holding strictly more than
`preflushChunkCount` chunks is prepended into the novel tables. -/
def World.preflush (w : World) : World :=
  match w.nbs.mt with
  | some m =>
    if preflushChunkCount < m.count then
      { w with nbs := { w.nbs with tables := w.nbs.tables.Prepend m, mt := none } }
    else w
  | none => w

/-- The memtable flush inside `updateManifest` (source lines 823–834):
under the locked update, a non-empty memtable is prepended into the
novel tables; an empty one is kept. -/
def World.lockedFlush (w : World) : World :=
  match w.nbs.mt with
  | some m =>
    if 0 < m.count then
      { w with nbs := { w.nbs with tables := w.nbs.tables.Prepend m, mt := none } }
    else w
  | none => w

/-- `handleOptimisticLockFailure` (source lines 802–816): install the
winning contents as the upstream view, rebase the table set onto their
specs, and classify the conflict — root moved when `last` differs from
the winner's root, otherwise only the tables changed. -/
def World.handleOptimisticLockFailure (w : World)
    (upstream : ManifestContents) (last : Addr) : World × CommitErr :=
  let w' := { w with
      nbs := { w.nbs with
                upstream := upstream
                tables := w.nbs.tables.Rebase w.persisted upstream.specs } }
  if last ≠ upstream.root then (w', CommitErr.lockFailedRoot)
  else (w', CommitErr.lockFailedTables)

/-- The CAS attempt inside `updateManifest` (source lines 853–866):
force serialization of the novel tables (`ToSpecs`), build the new
contents with `generateLockHash(current, specs)`, and `Update` the
manifest against the currently held upstream lock.  Returns the world
after the CAS, the new contents, and the winning contents. -/
def World.casAttempt (w : World) (current : Addr) :
    World × ManifestContents × ManifestContents :=
  let specs := w.nbs.tables.ToSpecs
  let w2 := { w with persisted := w.nbs.tables.novel ++ w.persisted }
  let nc : ManifestContents :=
    ⟨w2.nbs.upstream.vers, generateLockHash current specs, current, specs⟩
  let r := w2.mmUpdate w2.nbs.upstream.lock nc
  (r.1, nc, r.2)

/-- `updateManifest` after the root and doomed checks (source lines
823–884): flush the memtable, conjoin when required, then CAS the new
contents.  `ferr` is an oracle for the outcome of the external
`tableSet.Flatten` call: the source discards its error (`return nil`)
and on failure the table set is left at Go's zero value. -/
def World.updateManifestTail (w : World) (current last : Addr)
    (ferr : Bool) : World × Option CommitErr :=
  let w1 := w.lockedFlush
  if conjoinRequired w1.nbs.tables then
    let w2 := w1.conjoin
    let w3 := { w2 with
        nbs := { w2.nbs with
                  tables := w2.nbs.tables.Rebase w2.persisted
                    w2.nbs.upstream.specs } }
    (w3, some CommitErr.lockFailedTables)
  else
    let a := w1.casAttempt current
    if a.2.1.lock ≠ a.2.2.lock then
      let r2 := a.1.handleOptimisticLockFailure a.2.2 last
      (r2.1, some r2.2)
    else
      let tables1 := if ferr then newTableSet else a.1.nbs.tables.Flatten
      ({ a.1 with nbs := { a.1.nbs with upstream := a.2.1, tables := tables1 } },
        none)

/-- `NomsBlockStore.updateManifest` (source lines 795–884): fail fast
when the observed upstream root differs from `last`; reconcile
pre-emptively when the cached manifest dooms the update; otherwise flush,
conjoin if required, and CAS. -/
def World.updateManifest (w : World) (current last : Addr) (ferr : Bool) :
    World × Option CommitErr :=
  if w.nbs.upstream.root ≠ last then (w, some CommitErr.lastRootMismatch)
  else
    let uwf := w.updateWillFail w.nbs.upstream.lock
    if uwf.2 then
      let r := w.handleOptimisticLockFailure (uwf.1.getD emptyManifest) last
      (r.1, some r.2)
    else
      w.updateManifestTail current last ferr

/-- The retry loop of `Commit` (source lines 776–787), with explicit
fuel (`none` = fuel exhausted; the source loops unboundedly): success
and internal errors map to `(true, nil)`, `(false, nil)`, or an internal
retry on `errOptimisticLockFailedTables`. -/
def World.commitLoop (w : World) (current last : Addr) (ferr : Bool) :
    Nat → Option (World × Bool × Option CommitErr)
  | 0 => none
  | n + 1 =>
    match w.updateManifest current last ferr with
    | (w', none) => some (w', true, none)
    | (w', some CommitErr.lastRootMismatch) => some (w', false, none)
    | (w', some CommitErr.lockFailedRoot) => some (w', false, none)
    | (w', some CommitErr.lockFailedTables) =>
      w'.commitLoop current last ferr n

/-- `anyPossiblyNovelChunks` (source lines 721–725): a memtable is held
or novel tables exist. -/
def World.anyPossiblyNovelChunks (w : World) : Bool :=
  w.nbs.mt.isSome || decide (0 < w.nbs.tables.Novel)

/-- `NomsBlockStore.Commit` (source lines 717–787): with no possibly
novel chunks and `current == last`, rebase and report success without
touching the manifest; otherwise pre-flush a non-trivial memtable and
enter the manifest update loop. -/
def World.Commit (w : World) (current last : Addr) (ferr : Bool)
    (fuel : Nat) : Option (World × Bool × Option CommitErr) :=
  if w.anyPossiblyNovelChunks = false ∧ current = last then
    some (w.Rebase, true, none)
  else
    (w.preflush).commitLoop current last ferr fuel

/-- Association-list lookup keyed by address (first occurrence wins),
standing in for Go map indexing. -/
def lookupA {α : Type} : List (Addr × α) → Addr → Option α
  | [], _ => none
  | (k, v) :: rest, k' => if k' = k then some v else lookupA rest k'

/-- Association-list insertion that replaces the first occurrence of the
key, standing in for Go map assignment. -/
def insertA {α : Type} : List (Addr × α) → Addr → α → List (Addr × α)
  | [], k, v => [(k, v)]
  | (k0, v0) :: rest, k, v =>
    if k = k0 then (k, v) :: rest else (k0, v0) :: insertA rest k v

/-- The two-level location map `map[tableHash]map[chunkHash]Range`. -/
abbrev LocMap := List (Addr × List (Addr × Range))

/-- The per-source body of `GetChunkLocations` (source lines 181–244):
collect the requested hashes this source holds, record their ranges
under the source's table hash (merging with any existing entry for that
table), and delete them from the request set — the map is only touched
when something was found, as in the `mmapTableReader` branch (the
`chunkSourceAdapter` branch differs just by inserting an empty entry). -/
def processSource (st : LocMap × List Addr) (cs : ChunkSource) :
    LocMap × List Addr :=
  let found := st.2.filter (fun h => (cs.findRange h).isSome)
  if found.isEmpty then st
  else
    let y := (lookupA st.1 cs.name).getD []
    let y1 := found.foldl
      (fun acc h => insertA acc h ((cs.findRange h).getD ⟨0, 0⟩)) y
    (insertA st.1 cs.name y1, st.2.filter (fun h => (cs.findRange h).isNone))

/-- `NomsBlockStore.GetChunkLocations` (source lines 177–259): process
the upstream sources first, then the novel sources, threading the
mutated request set through; return the location map together with the
hashes left unserved (the mutated caller set). -/
def NBS.GetChunkLocations (nbs : NBS) (hashes : List Addr) :
    LocMap × List Addr :=
  let st1 := nbs.tables.upstream.foldl processSource ([], hashes)
  nbs.tables.novel.foldl processSource st1

/-! ## Helper lemmas -/

/-- Content-addressing well-formedness of an optional memtable: every
pending chunk is keyed by the content hash of its bytes (spec §3
invariant: a chunk's address equals `H(chunk.bytes)` at all times). -/
def memTableWF : Option MemTable → Bool
  | none => true
  | some m => m.pending.all (fun p => p.1 == H p.2)

theorem MemTable.lookup_mem {mt : MemTable} {a : Addr} {d : Bytes}
    (h : mt.lookup a = some d) : (a, d) ∈ mt.pending := by
  unfold MemTable.lookup at h
  rcases Option.map_eq_some'.mp h with ⟨p, hp, hd⟩
  have hmem := List.mem_of_find?_eq_some hp
  have hpa : p.1 = a := by simpa using List.find?_some hp
  cases p
  subst hpa
  subst hd
  exact hmem

theorem MemTable.addChunk_get_of_wf {mt : MemTable} {data : Bytes}
    (hwf : memTableWF (some mt) = true)
    (hok : (mt.addChunk (H data) data).2 = true) :
    (mt.addChunk (H data) data).1.get (H data) = some data := by
  unfold MemTable.addChunk at hok ⊢
  cases hl : mt.lookup (H data) with
  | some d =>
    have hmem := MemTable.lookup_mem hl
    have hkey : H data = H d := by
      have := List.all_eq_true.mp hwf (H data, d) hmem
      simpa using this
    have hdd : data = d := H_injective hkey
    subst hdd
    simp [MemTable.get, hl]
  | none =>
    have hfind := Option.map_eq_none'.mp (by unfold MemTable.lookup at hl; exact hl)
    by_cases hfit : mt.maxData < mt.totalData + data.length
    · simp [hl, hfit] at hok
    · simp only [hfit, if_false]
      simp [MemTable.get, MemTable.lookup, List.find?_append, hfind, List.find?]

theorem NBS.addChunk_mt_get {nbs : NBS} {data : Bytes}
    (hwf : memTableWF nbs.mt = true)
    (hok : (nbs.addChunk (H data) data).2 = true) :
    ((nbs.addChunk (H data) data).1.mt.bind (fun m => m.get (H data)))
      = some data := by
  unfold NBS.addChunk at hok ⊢
  have hwf' : memTableWF (some (nbs.mt.getD (newMemTable nbs.mtSize))) = true := by
    cases hm : nbs.mt with
    | none => simp [memTableWF, newMemTable]
    | some m => rw [hm] at hwf; simpa using hwf
  rcases hstep : (nbs.mt.getD (newMemTable nbs.mtSize)).addChunk (H data) data
    with ⟨mt1, b⟩
  simp only [hstep] at hok ⊢
  cases b with
  | true =>
    have h1 := MemTable.addChunk_get_of_wf hwf' (by rw [hstep])
    rw [hstep] at h1
    simpa using h1
  | false =>
    rcases hstep2 : (newMemTable nbs.mtSize).addChunk (H data) data with ⟨mt2, b2⟩
    simp only [hstep2] at hok ⊢
    cases b2 with
    | false => simp at hok
    | true =>
      have hwf2 : memTableWF (some (newMemTable nbs.mtSize)) = true := by
        simp [memTableWF, newMemTable]
      have h2 := MemTable.addChunk_get_of_wf hwf2 (by rw [hstep2])
      rw [hstep2] at h2
      simpa using h2

/-! ## Claim C1 -/

/-- **C1**: Put followed by Get round-trips: for every content-addressed
chunk `c`, after `Put c` succeeds on a store whose memtable is
content-addressed, a subsequent `Get (H c.data)` with no intervening
operations returns a chunk whose bytes equal `c.data` (found in the
memtable, which is probed first). -/
theorem put_get_roundtrip (nbs : NBS) (c : Chunk)
    (hc : c.hash = H c.data)
    (hwf : memTableWF nbs.mt = true)
    (hok : (nbs.Put c).2 = true) :
    ((nbs.Put c).1.Get (H c.data)).data = c.data := by
  unfold NBS.Put at hok ⊢
  rw [hc] at hok ⊢
  rcases hstep : nbs.addChunk (H c.data) c.data with ⟨nbs1, b⟩
  simp only [hstep] at hok ⊢
  cases b with
  | false => simp at hok
  | true =>
    have hget := @NBS.addChunk_mt_get nbs c.data hwf
      (by rw [hstep])
    rw [hstep] at hget
    simp only [Prod.snd] at hget ⊢
    unfold NBS.Get
    simp [hget, NewChunkWithHash]

/-- Witness for C1 at a concrete input: an empty store, the chunk of
bytes `[1, 2]`. -/
theorem put_get_roundtrip_witness :
    ((⟨H [1, 2], [1, 2]⟩ : Chunk).hash = H [1, 2]
      ∧ memTableWF (⟨none, ⟨[], []⟩, ⟨0, 0, 0, []⟩, 10, 0⟩ : NBS).mt = true
      ∧ ((⟨none, ⟨[], []⟩, ⟨0, 0, 0, []⟩, 10, 0⟩ : NBS).Put
          ⟨H [1, 2], [1, 2]⟩).2 = true)
    ∧ (((⟨none, ⟨[], []⟩, ⟨0, 0, 0, []⟩, 10, 0⟩ : NBS).Put
        ⟨H [1, 2], [1, 2]⟩).1.Get (H [1, 2])).data = [1, 2] :=
  ⟨⟨by decide, by decide, by decide⟩,
    put_get_roundtrip ⟨none, ⟨[], []⟩, ⟨0, 0, 0, []⟩, 10, 0⟩
      ⟨H [1, 2], [1, 2]⟩ (by decide) (by decide) (by decide)⟩

/-! ## Claim C5 -/

theorem sourcesGet_eq_none {l : List ChunkSource} {a : Addr}
    (h : ∀ cs ∈ l, cs.get a = none) : sourcesGet l a = none := by
  induction l with
  | nil => rfl
  | cons cs rest ih =>
    have h0 : cs.get a = none := h cs (List.mem_cons_self cs rest)
    simp only [sourcesGet, h0]
    exact ih (fun c hc => h c (List.mem_cons_of_mem cs hc))

/-- **C5**: `Get` for an address absent from the memtable, the novel
tables and the upstream tables returns the empty chunk; since the
modelled lookups are pure, no error accompanies absence. -/
theorem get_absent_returns_empty_chunk (nbs : NBS) (h : Addr)
    (hmt : ∀ m, nbs.mt = some m → m.get h = none)
    (hnovel : ∀ cs ∈ nbs.tables.novel, cs.get h = none)
    (hup : ∀ cs ∈ nbs.tables.upstream, cs.get h = none) :
    nbs.Get h = EmptyChunk := by
  unfold NBS.Get
  have hbind : nbs.mt.bind (fun m => m.get h) = none := by
    cases hm : nbs.mt with
    | none => rfl
    | some m => simpa using hmt m hm
  have hts : nbs.tables.get h = none := by
    unfold TableSet.get
    exact sourcesGet_eq_none (fun cs hc => by
      rcases List.mem_append.mp hc with h1 | h2
      · exact hnovel cs h1
      · exact hup cs h2)
  simp only [hbind, hts]

/-- Witness for C5 at a concrete input: the empty store and address 0. -/
theorem get_absent_returns_empty_chunk_witness :
    NBS.Get ⟨none, ⟨[], []⟩, ⟨0, 0, 0, []⟩, 10, 0⟩ 0 = EmptyChunk :=
  get_absent_returns_empty_chunk ⟨none, ⟨[], []⟩, ⟨0, 0, 0, []⟩, 10, 0⟩ 0
    (fun m hm => by cases hm) (fun cs hc => by cases hc)
    (fun cs hc => by cases hc)

/-! ## Claim C7 -/

theorem newMemTable_addChunk (s : Nat) (a : Addr) (bytes : Bytes)
    (h : bytes.length ≤ s) :
    (newMemTable s).addChunk a bytes = (⟨s, [(a, bytes)], bytes.length⟩, true) := by
  unfold newMemTable MemTable.addChunk MemTable.lookup
  simp [Nat.not_lt.mpr h]

theorem NBS.addChunk_succeeds (nbs : NBS) (a : Addr) (bytes : Bytes)
    (hfit : bytes.length ≤ nbs.mtSize) :
    (nbs.addChunk a bytes).2 = true := by
  unfold NBS.addChunk
  cases hm : nbs.mt with
  | none =>
    simp [newMemTable_addChunk nbs.mtSize a bytes hfit]
  | some m =>
    rcases hstep : m.addChunk a bytes with ⟨m1, b⟩
    simp only [Option.getD, hstep]
    cases b with
    | true => simp
    | false => simp [newMemTable_addChunk nbs.mtSize a bytes hfit]

/-- **C7**: `Put` of any chunk that fits in a fresh memtable of the
configured byte budget succeeds — the only failure would be a chunk too
large for a fresh memtable; moreover, when the current memtable rejects
the chunk (absent and over budget, e.g. a memtable exactly at budget),
the façade prepends that memtable to the novel tables and retries the
add once in a fresh memtable. -/
theorem put_succeeds_when_fits (nbs : NBS) (bytes : Bytes)
    (hfit : bytes.length ≤ nbs.mtSize) :
    (nbs.Put (NewChunk bytes)).2 = true
    ∧ (∀ m, nbs.mt = some m → m.lookup (H bytes) = none →
        m.maxData < m.totalData + bytes.length →
        (nbs.Put (NewChunk bytes)).1.tables = nbs.tables.Prepend m
        ∧ (nbs.Put (NewChunk bytes)).1.mt
            = some ((newMemTable nbs.mtSize).addChunk (H bytes) bytes).1) := by
  have hsucc := NBS.addChunk_succeeds nbs (H bytes) bytes hfit
  constructor
  · unfold NBS.Put
    simp only [NewChunk, hsucc]
    simp [hsucc]
  · intro m hm hlk hover
    have hstep : m.addChunk (H bytes) bytes = (m, false) := by
      unfold MemTable.addChunk
      rw [hlk]
      simp [hover]
    have h2 := newMemTable_addChunk nbs.mtSize (H bytes) bytes hfit
    unfold NBS.Put NBS.addChunk
    simp only [NewChunk, hm, Option.getD, hstep, h2]
    simp

/-- Witness for C7 at a concrete input: a memtable exactly at its byte
budget rotates and the `Put` succeeds in the fresh memtable. -/
theorem put_succeeds_when_fits_witness :
    ((⟨some ⟨2, [(H [7, 7], [7, 7])], 2⟩, ⟨[], []⟩, ⟨0, 0, 0, []⟩, 2, 0⟩ : NBS).Put
        (NewChunk [1, 2])).2 = true
    ∧ ((⟨some ⟨2, [(H [7, 7], [7, 7])], 2⟩, ⟨[], []⟩, ⟨0, 0, 0, []⟩, 2, 0⟩ : NBS).Put
        (NewChunk [1, 2])).1.tables
      = TableSet.Prepend ⟨[], []⟩ ⟨2, [(H [7, 7], [7, 7])], 2⟩ := by
  have h := put_succeeds_when_fits
    ⟨some ⟨2, [(H [7, 7], [7, 7])], 2⟩, ⟨[], []⟩, ⟨0, 0, 0, []⟩, 2, 0⟩
    [1, 2] (by decide)
  exact ⟨h.1, (h.2 ⟨2, [(H [7, 7], [7, 7])], 2⟩ rfl (by decide) (by decide)).1⟩

/-! ## Claim C6 -/

/-- **C6**: with no memtable, no novel tables and `current = last`,
`Commit` performs a `Rebase` (refreshing the upstream view from the
manifest when one exists) and returns `(true, nil)` without writing the
manifest. -/
theorem commit_noop_rebases (w : World) (current last : Addr) (ferr : Bool)
    (fuel : Nat) (hmt : w.nbs.mt = none) (hnov : w.nbs.tables.Novel = 0)
    (heq : current = last) :
    w.Commit current last ferr fuel = some (w.Rebase, true, none)
    ∧ (w.Rebase).manifest = w.manifest
    ∧ (∀ c, w.manifest = some c → (w.Rebase).nbs.upstream = c) := by
  refine ⟨?_, ?_, ?_⟩
  · unfold World.Commit
    have hany : w.anyPossiblyNovelChunks = false := by
      unfold World.anyPossiblyNovelChunks
      simp [hmt, hnov]
    simp [hany, heq]
  · unfold World.Rebase
    cases hm : w.manifest <;> simp [hm]
  · intro c hc
    unfold World.Rebase
    rw [hc]

/-- Witness for C6 at a concrete input: an idle store whose manifest
holds root 9. -/
theorem commit_noop_rebases_witness :
    (⟨⟨none, ⟨[], []⟩, ⟨0, 0, 3, []⟩, 10, 0⟩, some ⟨0, 5, 9, []⟩, none, []⟩
        : World).Commit 4 4 false 0
      = some ((⟨⟨none, ⟨[], []⟩, ⟨0, 0, 3, []⟩, 10, 0⟩, some ⟨0, 5, 9, []⟩,
          none, []⟩ : World).Rebase, true, none)
    ∧ ((⟨⟨none, ⟨[], []⟩, ⟨0, 0, 3, []⟩, 10, 0⟩, some ⟨0, 5, 9, []⟩, none, []⟩
        : World).Rebase).manifest = some ⟨0, 5, 9, []⟩ := by
  have h := commit_noop_rebases
    ⟨⟨none, ⟨[], []⟩, ⟨0, 0, 3, []⟩, 10, 0⟩, some ⟨0, 5, 9, []⟩, none, []⟩
    4 4 false 0 rfl rfl rfl
  exact ⟨h.1, by rw [h.2.1]⟩

/-! ## Claim C3 (corrected) -/

theorem World.preflush_fields (w : World) :
    (w.preflush).manifest = w.manifest ∧ (w.preflush).mmCache = w.mmCache
    ∧ (w.preflush).nbs.upstream = w.nbs.upstream
    ∧ (w.preflush).persisted = w.persisted := by
  unfold World.preflush
  cases hm : w.nbs.mt with
  | none => exact ⟨rfl, rfl, rfl, rfl⟩
  | some m =>
    by_cases hc : preflushChunkCount < m.count <;> simp [hc]

/-- Counterexample to C3 as stated: a store whose observed upstream root
(3) differs from the caller's `last` (5), yet `Commit 5 5` takes the
no-novel-chunks shortcut and returns `(true, nil)`, not `(false, nil)`. -/
theorem commit_root_mismatch_counterexample :
    (⟨⟨none, ⟨[], []⟩, ⟨0, 0, 3, []⟩, 10, 0⟩, none, none, []⟩
        : World).nbs.upstream.root ≠ 5
    ∧ (⟨⟨none, ⟨[], []⟩, ⟨0, 0, 3, []⟩, 10, 0⟩, none, none, []⟩
        : World).Commit 5 5 false 1
      = some ((⟨⟨none, ⟨[], []⟩, ⟨0, 0, 3, []⟩, 10, 0⟩, none, none, []⟩
          : World).Rebase, true, none) := by
  constructor
  · decide
  · decide

/-- **C3** (amended): when `Commit` does not take the no-novel-chunks
shortcut — the store holds a memtable or novel tables, or
`current ≠ last` — and the observed upstream root differs from `last`,
`Commit` fails before attempting any manifest CAS: it returns
`(false, nil)` having only pre-flushed the memtable, with the manifest
and the manifest cache unchanged.  (As stated the claim is false: on the
shortcut path, `Commit` returns `(true, nil)` without comparing the
upstream root to `last`.) -/
theorem commit_last_root_mismatch (w : World) (current last : Addr)
    (ferr : Bool) (n : Nat)
    (hroot : w.nbs.upstream.root ≠ last)
    (hpath : w.anyPossiblyNovelChunks = true ∨ current ≠ last) :
    w.Commit current last ferr (n + 1) = some (w.preflush, false, none)
    ∧ (w.preflush).manifest = w.manifest
    ∧ (w.preflush).mmCache = w.mmCache := by
  have hpf := World.preflush_fields w
  refine ⟨?_, hpf.1, hpf.2.1⟩
  unfold World.Commit
  have hcond : ¬ (w.anyPossiblyNovelChunks = false ∧ current = last) := by
    rintro ⟨h1, h2⟩
    rcases hpath with h | h
    · rw [h] at h1; cases h1
    · exact h h2
  rw [if_neg hcond]
  have hroot' : (w.preflush).nbs.upstream.root ≠ last := by
    rw [hpf.2.2.1]; exact hroot
  simp only [World.commitLoop]
  unfold World.updateManifest
  rw [if_pos hroot']

/-! ## Claim C4 (corrected) -/

theorem updateManifestTail_none_root (w : World) (current last : Addr)
    (ferr : Bool)
    (h : (w.updateManifestTail current last ferr).2 = none) :
    (w.updateManifestTail current last ferr).1.nbs.upstream.root = current := by
  unfold World.updateManifestTail at h ⊢
  by_cases h1 : conjoinRequired (w.lockedFlush).nbs.tables = true
  · simp [h1] at h
  · by_cases h2 : ((w.lockedFlush).casAttempt current).2.1.lock
        ≠ ((w.lockedFlush).casAttempt current).2.2.lock
    · simp [h1, h2] at h
    · simp only [h1, h2, if_false, if_true, if_neg, ite_false, ite_true,
        Bool.false_eq_true, not_false_eq_true]
      simp [h1, h2, World.casAttempt]

theorem updateManifest_none_root (w : World) (current last : Addr)
    (ferr : Bool)
    (h : (w.updateManifest current last ferr).2 = none) :
    (w.updateManifest current last ferr).1.nbs.upstream.root = current := by
  unfold World.updateManifest at h ⊢
  by_cases h1 : w.nbs.upstream.root ≠ last
  · simp [h1] at h
  · rw [if_neg h1] at h ⊢
    by_cases h2 : (w.updateWillFail w.nbs.upstream.lock).2 = true
    · simp [h2] at h
    · simp only [h2] at h ⊢
      simp only [Bool.false_eq_true, if_false] at h ⊢
      · exact updateManifestTail_none_root w current last ferr h

theorem commitLoop_true_root (current last : Addr) (ferr : Bool) :
    ∀ (fuel : Nat) (w w' : World) (e : Option CommitErr),
      w.commitLoop current last ferr fuel = some (w', true, e) →
      w'.nbs.upstream.root = current := by
  intro fuel
  induction fuel with
  | zero =>
    intro w w' e h
    simp [World.commitLoop] at h
  | succ n ih =>
    intro w w' e h
    simp only [World.commitLoop] at h
    rcases hr : w.updateManifest current last ferr with ⟨w1, err⟩
    rw [hr] at h
    cases err with
    | none =>
      simp only [Option.some.injEq, Prod.mk.injEq] at h
      obtain ⟨hw, -, -⟩ := h
      subst hw
      have hroot := updateManifest_none_root w current last ferr (by rw [hr])
      rw [hr] at hroot
      exact hroot
    | some ce =>
      cases ce with
      | lastRootMismatch => simp at h
      | lockFailedRoot => simp at h
      | lockFailedTables => exact ih w1 w' e h

/-- Counterexample to C4 as stated: with no possibly novel chunks and
`current = last = 5` but upstream root 3, `Commit` takes the shortcut,
returns `(true, nil)`, and the subsequent `Root` returns the rebased
root 3, not `current = 5`. -/
theorem commit_root_counterexample :
    (⟨⟨none, ⟨[], []⟩, ⟨0, 0, 3, []⟩, 10, 0⟩, none, none, []⟩
        : World).Commit 5 5 false 1
      = some ((⟨⟨none, ⟨[], []⟩, ⟨0, 0, 3, []⟩, 10, 0⟩, none, none, []⟩
          : World).Rebase, true, none)
    ∧ ¬ ((⟨⟨none, ⟨[], []⟩, ⟨0, 0, 3, []⟩, 10, 0⟩, none, none, []⟩
        : World).Rebase).Root = 5 := by
  constructor
  · decide
  · decide

/-- **C4** (amended): after `Commit current last` returns `(true, nil)`
through the manifest-update path — the store held a memtable or novel
tables, or `current ≠ last` — every subsequent `Root` call returns
`current`.  (As stated the claim is false: on the no-novel-chunks
shortcut, `Commit` returns `(true, nil)` and `Root` returns the freshly
rebased manifest root, which need not equal `current`.) -/
theorem commit_true_then_root_is_current (w : World) (current last : Addr)
    (ferr : Bool) (fuel : Nat) (w' : World) (e : Option CommitErr)
    (hpath : w.anyPossiblyNovelChunks = true ∨ current ≠ last)
    (hc : w.Commit current last ferr fuel = some (w', true, e)) :
    w'.Root = current := by
  unfold World.Commit at hc
  have hcond : ¬ (w.anyPossiblyNovelChunks = false ∧ current = last) := by
    rintro ⟨h1, h2⟩
    rcases hpath with h | h
    · rw [h] at h1; cases h1
    · exact h h2
  rw [if_neg hcond] at hc
  exact commitLoop_true_root current last ferr fuel (w.preflush) w' e hc

/-- Witness for C4 at a concrete input: an empty store committing root 7
over last 0 through a successful manifest CAS. -/
theorem commit_true_then_root_is_current_witness :
    (⟨⟨none, ⟨[], []⟩, ⟨0, 0, 0, []⟩, 10, 0⟩, none, none, []⟩
        : World).Commit 7 0 false 1
      = some (⟨⟨none, ⟨[], []⟩, ⟨0, generateLockHash 7 [], 7, []⟩, 10, 0⟩,
          some ⟨0, generateLockHash 7 [], 7, []⟩,
          some ⟨0, generateLockHash 7 [], 7, []⟩, []⟩, true, none)
    ∧ (⟨⟨none, ⟨[], []⟩, ⟨0, generateLockHash 7 [], 7, []⟩, 10, 0⟩,
        some ⟨0, generateLockHash 7 [], 7, []⟩,
        some ⟨0, generateLockHash 7 [], 7, []⟩, []⟩ : World).Root = 7 := by
  have hc : (⟨⟨none, ⟨[], []⟩, ⟨0, 0, 0, []⟩, 10, 0⟩, none, none, []⟩
        : World).Commit 7 0 false 1
      = some (⟨⟨none, ⟨[], []⟩, ⟨0, generateLockHash 7 [], 7, []⟩, 10, 0⟩,
          some ⟨0, generateLockHash 7 [], 7, []⟩,
          some ⟨0, generateLockHash 7 [], 7, []⟩, []⟩, true, none) := by decide
  exact ⟨hc, commit_true_then_root_is_current
    ⟨⟨none, ⟨[], []⟩, ⟨0, 0, 0, []⟩, 10, 0⟩, none, none, []⟩ 7 0 false 1
    _ none (Or.inr (by decide)) hc⟩

/-- Witness for C3 (amended) at a concrete input: upstream root 3,
`last = 5`, `current = 6 ≠ last`. -/
theorem commit_last_root_mismatch_witness :
    (⟨⟨none, ⟨[], []⟩, ⟨0, 0, 3, []⟩, 10, 0⟩, none, none, []⟩
        : World).nbs.upstream.root ≠ 5
    ∧ (⟨⟨none, ⟨[], []⟩, ⟨0, 0, 3, []⟩, 10, 0⟩, none, none, []⟩
        : World).Commit 6 5 false 1
      = some ((⟨⟨none, ⟨[], []⟩, ⟨0, 0, 3, []⟩, 10, 0⟩, none, none, []⟩
          : World).preflush, false, none) :=
  ⟨by decide,
    (commit_last_root_mismatch
      ⟨⟨none, ⟨[], []⟩, ⟨0, 0, 3, []⟩, 10, 0⟩, none, none, []⟩
      6 5 false 0 (by decide) (Or.inr (by decide))).1⟩

/-! ## Claim C8 -/

theorem World.lockedFlush_fields (w : World) :
    (w.lockedFlush).manifest = w.manifest
    ∧ (w.lockedFlush).mmCache = w.mmCache
    ∧ (w.lockedFlush).nbs.upstream = w.nbs.upstream
    ∧ (w.lockedFlush).persisted = w.persisted
    ∧ (w.lockedFlush).nbs.tables.upstream = w.nbs.tables.upstream := by
  unfold World.lockedFlush
  cases hm : w.nbs.mt with
  | none => exact ⟨rfl, rfl, rfl, rfl, rfl⟩
  | some m => by_cases hc : 0 < m.count <;> simp [hc, TableSet.Prepend]

theorem World.preflush_tables_upstream (w : World) :
    (w.preflush).nbs.tables.upstream = w.nbs.tables.upstream := by
  unfold World.preflush
  cases hm : w.nbs.mt with
  | none => rfl
  | some m => by_cases hc : preflushChunkCount < m.count <;>
      simp [hc, TableSet.Prepend]

/-- **C8**: at `Commit` entry, before the manifest update lock, the
memtable is prepended into the novel tables iff its distinct chunk count
strictly exceeds `preflushChunkCount = 8`; otherwise it is flushed later,
inside the locked update, exactly when its count is nonzero.  The last
conjunct ties the pre-flush step to `Commit`'s non-shortcut path. -/
theorem commit_preflush_policy (w : World) (m : MemTable)
    (current last : Addr) (ferr : Bool) (fuel : Nat)
    (hm : w.nbs.mt = some m) (hne : current ≠ last) :
    preflushChunkCount = 8
    ∧ (8 < m.count →
        (w.preflush).nbs.tables = w.nbs.tables.Prepend m
        ∧ (w.preflush).nbs.mt = none)
    ∧ (m.count ≤ 8 → w.preflush = w)
    ∧ (0 < m.count →
        (w.lockedFlush).nbs.tables = w.nbs.tables.Prepend m
        ∧ (w.lockedFlush).nbs.mt = none)
    ∧ (m.count = 0 → w.lockedFlush = w)
    ∧ w.Commit current last ferr fuel
        = (w.preflush).commitLoop current last ferr fuel := by
  refine ⟨rfl, ?_, ?_, ?_, ?_, ?_⟩
  · intro hgt
    unfold World.preflush
    rw [hm]
    simp [preflushChunkCount, hgt]
  · intro hle
    unfold World.preflush
    rw [hm]
    simp [preflushChunkCount, Nat.not_lt.mpr hle]
  · intro hpos
    unfold World.lockedFlush
    rw [hm]
    simp [hpos]
  · intro hz
    unfold World.lockedFlush
    rw [hm]
    simp [hz]
  · unfold World.Commit
    rw [if_neg (by rintro ⟨-, h2⟩; exact hne h2)]

/-- Witness for C8 at a concrete input: a nine-chunk memtable is
pre-flushed at `Commit` entry. -/
theorem commit_preflush_policy_witness :
    ((⟨⟨some ⟨100, [(1, [1]), (2, [2]), (3, [3]), (4, [4]), (5, [5]),
          (6, [6]), (7, [7]), (8, [8]), (9, [9])], 9⟩, ⟨[], []⟩,
          ⟨0, 0, 0, []⟩, 100, 0⟩, none, none, []⟩ : World).preflush).nbs.tables
      = TableSet.Prepend ⟨[], []⟩
          ⟨100, [(1, [1]), (2, [2]), (3, [3]), (4, [4]), (5, [5]),
            (6, [6]), (7, [7]), (8, [8]), (9, [9])], 9⟩
    ∧ ((⟨⟨some ⟨100, [(1, [1]), (2, [2]), (3, [3]), (4, [4]), (5, [5]),
          (6, [6]), (7, [7]), (8, [8]), (9, [9])], 9⟩, ⟨[], []⟩,
          ⟨0, 0, 0, []⟩, 100, 0⟩, none, none, []⟩ : World).preflush).nbs.mt
      = none :=
  (commit_preflush_policy
    ⟨⟨some ⟨100, [(1, [1]), (2, [2]), (3, [3]), (4, [4]), (5, [5]),
        (6, [6]), (7, [7]), (8, [8]), (9, [9])], 9⟩, ⟨[], []⟩,
        ⟨0, 0, 0, []⟩, 100, 0⟩, none, none, []⟩
    ⟨100, [(1, [1]), (2, [2]), (3, [3]), (4, [4]), (5, [5]),
        (6, [6]), (7, [7]), (8, [8]), (9, [9])], 9⟩
    1 0 false 1 rfl (by decide)).2.1 (by decide)

/-! ## Claim C9 -/

theorem casAttempt_success_lock (w : World) (current : Addr)
    (hcas : (w.manifest.getD emptyManifest).lock = w.nbs.upstream.lock) :
    (w.casAttempt current).2.2 = (w.casAttempt current).2.1
    ∧ (w.casAttempt current).2.1.root = current := by
  unfold World.casAttempt World.mmUpdate
  simp [hcas]

theorem updateManifest_success_err (w : World) (current last : Addr)
    (ferr : Bool)
    (hroot : w.nbs.upstream.root = last)
    (hcache : w.mmCache = none)
    (hconj : conjoinRequired w.nbs.tables = false)
    (hcas : (w.manifest.getD emptyManifest).lock = w.nbs.upstream.lock) :
    (w.updateManifest current last ferr).2 = none := by
  unfold World.updateManifest
  rw [if_neg (by simp [hroot])]
  have huwf : (w.updateWillFail w.nbs.upstream.lock).2 = false := by
    simp [World.updateWillFail, hcache]
  simp only [huwf, Bool.false_eq_true, if_false]
  unfold World.updateManifestTail
  have hfl := World.lockedFlush_fields w
  have hconj2 : conjoinRequired (w.lockedFlush).nbs.tables = false := by
    unfold conjoinRequired at hconj ⊢
    rw [hfl.2.2.2.2]
    exact hconj
  have hcas2 : ((w.lockedFlush).manifest.getD emptyManifest).lock
      = (w.lockedFlush).nbs.upstream.lock := by
    rw [hfl.1, hfl.2.2.1]
    exact hcas
  have hlock := (casAttempt_success_lock (w.lockedFlush) current hcas2).1
  have hnn : ¬(((w.lockedFlush).casAttempt current).2.1.lock
      ≠ ((w.lockedFlush).casAttempt current).2.2.lock) := by
    simp [hlock]
  simp only [hconj2, Bool.false_eq_true, if_false]
  simp [hnn]

/-- **C9**: when the manifest `Update` returns contents whose lock equals
the newly generated lock, `updateManifest` returns `nil` — and `Commit`
reports `(true, nil)` — for any outcome `ferr` of the subsequent
`Flatten` of the table set; the `Flatten` error is discarded and never
surfaced to the caller. -/
theorem updateManifest_discards_flatten_error (w : World)
    (current last : Addr) (ferr : Bool) (n : Nat)
    (hroot : w.nbs.upstream.root = last)
    (hcache : w.mmCache = none)
    (hconj : conjoinRequired w.nbs.tables = false)
    (hcas : (w.manifest.getD emptyManifest).lock = w.nbs.upstream.lock)
    (hne : current ≠ last) :
    (w.updateManifest current last ferr).2 = none
    ∧ w.Commit current last ferr (n + 1)
        = some (((w.preflush).updateManifest current last ferr).1, true,
            none) := by
  have hpf := World.preflush_fields w
  have h1 := updateManifest_success_err w current last ferr hroot hcache
    hconj hcas
  have hroot2 : (w.preflush).nbs.upstream.root = last := by
    rw [hpf.2.2.1]; exact hroot
  have hcache2 : (w.preflush).mmCache = none := by
    rw [hpf.2.1]; exact hcache
  have hconj2 : conjoinRequired (w.preflush).nbs.tables = false := by
    unfold conjoinRequired at hconj ⊢
    rw [World.preflush_tables_upstream w]
    exact hconj
  have hcas2 : ((w.preflush).manifest.getD emptyManifest).lock
      = (w.preflush).nbs.upstream.lock := by
    rw [hpf.1, hpf.2.2.1]
    exact hcas
  have h2 := updateManifest_success_err (w.preflush) current last ferr
    hroot2 hcache2 hconj2 hcas2
  refine ⟨h1, ?_⟩
  unfold World.Commit
  rw [if_neg (by rintro ⟨-, hx⟩; exact hne hx)]
  simp only [World.commitLoop]
  rcases hr : (w.preflush).updateManifest current last ferr with ⟨w1, err⟩
  rw [hr] at h2
  simp only [Prod.snd] at h2
  subst h2
  simp

/-- Witness for C9 at a concrete input: a store with one pending chunk
commits root 7 over last 0 while the external `Flatten` fails
(`ferr = true`); the error is discarded. -/
theorem updateManifest_discards_flatten_error_witness :
    ((⟨⟨some ⟨10, [(1, [5])], 1⟩, ⟨[], []⟩, ⟨0, 0, 0, []⟩, 10, 0⟩,
        none, none, []⟩ : World).updateManifest 7 0 true).2 = none
    ∧ (⟨⟨some ⟨10, [(1, [5])], 1⟩, ⟨[], []⟩, ⟨0, 0, 0, []⟩, 10, 0⟩,
        none, none, []⟩ : World).Commit 7 0 true 1
      = some ((((⟨⟨some ⟨10, [(1, [5])], 1⟩, ⟨[], []⟩, ⟨0, 0, 0, []⟩, 10, 0⟩,
          none, none, []⟩ : World).preflush).updateManifest 7 0 true).1,
          true, none) :=
  updateManifest_discards_flatten_error
    ⟨⟨some ⟨10, [(1, [5])], 1⟩, ⟨[], []⟩, ⟨0, 0, 0, []⟩, 10, 0⟩,
      none, none, []⟩ 7 0 true 0 rfl rfl (by decide) (by decide) (by decide)

/-! ## Claim C2 -/

/-- The contents a losing CAS returns: the durable manifest (the Go zero
contents when none has been written). -/
def World.casReturned (w : World) : ManifestContents :=
  w.manifest.getD emptyManifest

theorem handleOptimisticLockFailure_fst (ww : World)
    (up : ManifestContents) (l : Addr) :
    (ww.handleOptimisticLockFailure up l).1
      = { ww with nbs := { ww.nbs with
            upstream := up,
            tables := ww.nbs.tables.Rebase ww.persisted up.specs } } := by
  unfold World.handleOptimisticLockFailure
  by_cases hc : l ≠ up.root <;> simp [hc]

/-- **C2**: when the manifest CAS returns contents whose lock differs
from the newly generated lock, the store installs the returned contents
as its upstream view and rebases its table set onto them; then, if the
returned root differs from `last`, `Commit` returns `(false, nil)`,
otherwise (root unchanged, tables changed) `Commit` retries the update
internally — the loop continues with the reconciled state — and does not
surface the conflict. -/
theorem commit_cas_lock_failure (w : World) (current last : Addr)
    (ferr : Bool)
    (hroot : w.nbs.upstream.root = last)
    (hmt : w.nbs.mt = none)
    (hcache : w.mmCache = none)
    (hconj : conjoinRequired w.nbs.tables = false)
    (hne : current ≠ last)
    (hcas : (w.casReturned).lock ≠ w.nbs.upstream.lock)
    (hlock : generateLockHash current (w.nbs.tables.ToSpecs)
        ≠ (w.casReturned).lock) :
    (w.updateManifest current last ferr).1.nbs.upstream = w.casReturned
    ∧ (w.updateManifest current last ferr).1.nbs.tables
        = w.nbs.tables.Rebase (w.nbs.tables.novel ++ w.persisted)
            (w.casReturned).specs
    ∧ ((w.casReturned).root ≠ last →
        (w.updateManifest current last ferr).2
            = some CommitErr.lockFailedRoot
        ∧ ∀ n, w.Commit current last ferr (n + 1)
            = some ((w.updateManifest current last ferr).1, false, none))
    ∧ ((w.casReturned).root = last →
        (w.updateManifest current last ferr).2
            = some CommitErr.lockFailedTables
        ∧ ∀ n, w.Commit current last ferr (n + 1)
            = ((w.updateManifest current last ferr).1).commitLoop
                current last ferr n) := by
  have hlf : w.lockedFlush = w := by
    unfold World.lockedFlush
    rw [hmt]
  have hpfw : w.preflush = w := by
    unfold World.preflush
    rw [hmt]
  have hcas' : ¬ ((w.manifest.getD emptyManifest).lock
      = w.nbs.upstream.lock) := by
    unfold World.casReturned at hcas
    exact hcas
  have key : w.updateManifestTail current last ferr
      = ((({ w with
              mmCache := some w.casReturned,
              persisted := w.nbs.tables.novel ++ w.persisted }
            : World).handleOptimisticLockFailure w.casReturned last).1,
          some ((({ w with
              mmCache := some w.casReturned,
              persisted := w.nbs.tables.novel ++ w.persisted }
            : World).handleOptimisticLockFailure w.casReturned last).2)) := by
    unfold World.updateManifestTail
    simp only [hlf, hconj, Bool.false_eq_true, if_false]
    unfold World.casAttempt World.mmUpdate
    simp only [if_neg hcas', World.casReturned]
    rw [if_pos (by
      unfold World.casReturned at hlock
      simpa using hlock)]
  have hu : w.updateManifest current last ferr
      = ((({ w with
              mmCache := some w.casReturned,
              persisted := w.nbs.tables.novel ++ w.persisted }
            : World).handleOptimisticLockFailure w.casReturned last).1,
          some ((({ w with
              mmCache := some w.casReturned,
              persisted := w.nbs.tables.novel ++ w.persisted }
            : World).handleOptimisticLockFailure w.casReturned last).2)) := by
    unfold World.updateManifest
    rw [if_neg (by simp [hroot])]
    have huwf : (w.updateWillFail w.nbs.upstream.lock).2 = false := by
      simp [World.updateWillFail, hcache]
    simp only [huwf, Bool.false_eq_true, if_false]
    exact key
  have hfst := handleOptimisticLockFailure_fst
    ({ w with
        mmCache := some w.casReturned,
        persisted := w.nbs.tables.novel ++ w.persisted } : World)
    w.casReturned last
  refine ⟨?_, ?_, ?_, ?_⟩
  · rw [hu]
    simp only [hfst]
  · rw [hu]
    simp only [hfst]
  · intro hrne
    have hlne : last ≠ (w.casReturned).root := fun he => hrne he.symm
    have hsnd : ((({ w with
        mmCache := some w.casReturned,
        persisted := w.nbs.tables.novel ++ w.persisted }
          : World).handleOptimisticLockFailure w.casReturned last)).2
        = CommitErr.lockFailedRoot := by
      unfold World.handleOptimisticLockFailure
      simp [hlne]
    refine ⟨by rw [hu, hsnd], ?_⟩
    intro n
    unfold World.Commit
    rw [if_neg (by rintro ⟨-, hx⟩; exact hne hx)]
    simp only [hpfw, World.commitLoop]
    rw [hu, hsnd]
  · intro hreq
    have hleq : ¬ (last ≠ (w.casReturned).root) := by
      simp [hreq.symm]
    have hsnd : ((({ w with
        mmCache := some w.casReturned,
        persisted := w.nbs.tables.novel ++ w.persisted }
          : World).handleOptimisticLockFailure w.casReturned last)).2
        = CommitErr.lockFailedTables := by
      unfold World.handleOptimisticLockFailure
      simp [hleq]
    refine ⟨by rw [hu, hsnd], ?_⟩
    intro n
    unfold World.Commit
    rw [if_neg (by rintro ⟨-, hx⟩; exact hne hx)]
    simp only [hpfw, World.commitLoop]
    rw [hu, hsnd]

/-- Witness for C2 at a concrete input: the store holds lock 5 while the
durable manifest has lock 8 and root 1; committing 2 over last 0 loses
the CAS and, since the returned root 1 differs from last 0, `Commit`
returns `(false, nil)`. -/
theorem commit_cas_lock_failure_witness :
    ((⟨⟨none, ⟨[], []⟩, ⟨0, 5, 0, []⟩, 10, 0⟩, some ⟨0, 8, 1, []⟩, none, []⟩
        : World).updateManifest 2 0 false).1.nbs.upstream
      = (⟨⟨none, ⟨[], []⟩, ⟨0, 5, 0, []⟩, 10, 0⟩, some ⟨0, 8, 1, []⟩, none, []⟩
        : World).casReturned
    ∧ ((⟨⟨none, ⟨[], []⟩, ⟨0, 5, 0, []⟩, 10, 0⟩, some ⟨0, 8, 1, []⟩, none, []⟩
        : World).updateManifest 2 0 false).2 = some CommitErr.lockFailedRoot
    ∧ (⟨⟨none, ⟨[], []⟩, ⟨0, 5, 0, []⟩, 10, 0⟩, some ⟨0, 8, 1, []⟩, none, []⟩
        : World).Commit 2 0 false 1
      = some (((⟨⟨none, ⟨[], []⟩, ⟨0, 5, 0, []⟩, 10, 0⟩, some ⟨0, 8, 1, []⟩,
          none, []⟩ : World).updateManifest 2 0 false).1, false, none) := by
  have h := commit_cas_lock_failure
    ⟨⟨none, ⟨[], []⟩, ⟨0, 5, 0, []⟩, 10, 0⟩, some ⟨0, 8, 1, []⟩, none, []⟩
    2 0 false rfl rfl rfl (by decide) (by decide) (by decide) (by decide)
  exact ⟨h.1, (h.2.2.1 (by decide)).1, (h.2.2.1 (by decide)).2 0⟩

/-! ## Claim C10 -/

/-- Chunk hash `h` is assigned to table hash `t` in a location map. -/
def recordedAt (m : LocMap) (t h : Addr) : Prop :=
  ∃ y, lookupA m t = some y ∧ (lookupA y h).isSome = true

theorem lookupA_insertA {α : Type} (m : List (Addr × α)) (k k' : Addr)
    (v : α) :
    lookupA (insertA m k v) k' = if k' = k then some v else lookupA m k' := by
  induction m with
  | nil => simp [insertA, lookupA]
  | cons p rest ih =>
    rcases p with ⟨k0, v0⟩
    unfold insertA
    by_cases hk : k = k0
    · subst hk
      by_cases h' : k' = k <;> simp [lookupA, h']
    · by_cases h0 : k' = k0
      · subst h0
        have h1 : ¬ k' = k := fun he => hk he.symm
        simp [lookupA, hk, h1]
      · by_cases h1 : k' = k
        · subst h1
          simp [lookupA, hk, h0, ih]
        · simp [lookupA, hk, h0, h1, ih]

theorem lookupA_foldl_insertA (f : Addr → Range) (found : List Addr)
    (y : List (Addr × Range)) (h0 : Addr) :
    (lookupA (found.foldl (fun acc h => insertA acc h (f h)) y) h0).isSome
        = true
      ↔ h0 ∈ found ∨ (lookupA y h0).isSome = true := by
  induction found generalizing y with
  | nil => simp
  | cons a rest ih =>
    simp only [List.foldl_cons]
    rw [ih]
    by_cases ha : h0 = a
    · subst ha
      simp [lookupA_insertA]
    · simp [lookupA_insertA, ha, List.mem_cons]

theorem processSource_recordedAt (st : LocMap × List Addr)
    (cs : ChunkSource) (t h : Addr) :
    recordedAt (processSource st cs).1 t h ↔
      (recordedAt st.1 t h
        ∨ (t = cs.name ∧ h ∈ st.2 ∧ (cs.findRange h).isSome = true)) := by
  unfold processSource
  by_cases he : (st.2.filter (fun x => (cs.findRange x).isSome)).isEmpty
      = true
  · simp only [he, if_true]
    constructor
    · exact Or.inl
    · rintro (hr | ⟨ht, hh, hf⟩)
      · exact hr
      · exfalso
        have hmem : h ∈ st.2.filter (fun x => (cs.findRange x).isSome) :=
          List.mem_filter.mpr ⟨hh, hf⟩
        rw [List.isEmpty_iff] at he
        rw [he] at hmem
        cases hmem
  · simp only [if_neg he]
    by_cases ht : t = cs.name
    · constructor
      · rintro ⟨y, hy, hsome⟩
        rw [ht, lookupA_insertA, if_pos rfl] at hy
        injection hy with hy'
        subst hy'
        rw [lookupA_foldl_insertA] at hsome
        rcases hsome with hmem | hold
        · have hmf := List.mem_filter.mp hmem
          exact Or.inr ⟨ht, hmf.1, hmf.2⟩
        · cases hlk : lookupA st.1 cs.name with
          | none => rw [hlk] at hold; simp [lookupA] at hold
          | some y0 =>
            rw [hlk] at hold
            exact Or.inl ⟨y0, by rw [ht]; exact hlk, by simpa using hold⟩
      · rintro (hr | ⟨-, hh, hf⟩)
        · rcases hr with ⟨y, hy, hsome⟩
          rw [ht] at hy
          refine ⟨_, by rw [ht, lookupA_insertA, if_pos rfl], ?_⟩
          rw [lookupA_foldl_insertA]
          right
          rw [hy]
          simpa using hsome
        · refine ⟨_, by rw [ht, lookupA_insertA, if_pos rfl], ?_⟩
          rw [lookupA_foldl_insertA]
          exact Or.inl (List.mem_filter.mpr ⟨hh, hf⟩)
    · unfold recordedAt
      rw [lookupA_insertA]
      simp only [if_neg ht]
      constructor
      · exact Or.inl
      · rintro (hr | ⟨ht', -, -⟩)
        · exact hr
        · exact absurd ht' ht

theorem processSource_hashes (st : LocMap × List Addr) (cs : ChunkSource) :
    (processSource st cs).2
      = st.2.filter (fun h => (cs.findRange h).isNone) := by
  unfold processSource
  by_cases he : (st.2.filter (fun x => (cs.findRange x).isSome)).isEmpty
      = true
  · simp only [he, if_true]
    rw [List.isEmpty_iff] at he
    rw [eq_comm, List.filter_eq_self]
    intro a ha
    cases hcr : cs.findRange a with
    | none => simp
    | some r =>
      exfalso
      have hmem : a ∈ st.2.filter (fun x => (cs.findRange x).isSome) :=
        List.mem_filter.mpr ⟨ha, by simp [hcr]⟩
      rw [he] at hmem
      cases hmem
  · simp only [if_neg he]

theorem processSource_mono (st : LocMap × List Addr) (cs : ChunkSource)
    (t h : Addr) (hr : recordedAt st.1 t h) :
    recordedAt (processSource st cs).1 t h :=
  (processSource_recordedAt st cs t h).mpr (Or.inl hr)

theorem foldl_processSource_mono (srcs : List ChunkSource)
    (st : LocMap × List Addr) (t h : Addr) (hr : recordedAt st.1 t h) :
    recordedAt (srcs.foldl processSource st).1 t h := by
  induction srcs generalizing st with
  | nil => exact hr
  | cons cs rest ih => exact ih _ (processSource_mono st cs t h hr)

/-- The invariant threaded through `GetChunkLocations`: hashes already
assigned are no longer requested, and every hash is assigned to at most
one table. -/
def locInv (st : LocMap × List Addr) : Prop :=
  (∀ t h, recordedAt st.1 t h → h ∉ st.2)
  ∧ (∀ t1 t2 h, recordedAt st.1 t1 h → recordedAt st.1 t2 h → t1 = t2)

theorem processSource_inv (st : LocMap × List Addr) (cs : ChunkSource)
    (hinv : locInv st) : locInv (processSource st cs) := by
  obtain ⟨h1, h2⟩ := hinv
  constructor
  · intro t h hr hmem
    rw [processSource_hashes] at hmem
    have hmem' := List.mem_filter.mp hmem
    rcases (processSource_recordedAt st cs t h).mp hr with hold | ⟨-, hh, hf⟩
    · exact h1 t h hold hmem'.1
    · cases hcr : cs.findRange h with
      | none => rw [hcr] at hf; cases hf
      | some r =>
        have := hmem'.2
        rw [hcr] at this
        cases this
  · intro t1 t2 h hr1 hr2
    rcases (processSource_recordedAt st cs t1 h).mp hr1
      with ho1 | ⟨ht1, hh1, hf1⟩
    <;> rcases (processSource_recordedAt st cs t2 h).mp hr2
      with ho2 | ⟨ht2, hh2, hf2⟩
    · exact h2 t1 t2 h ho1 ho2
    · exact (h1 t1 h ho1 hh2).elim
    · exact (h1 t2 h ho2 hh1).elim
    · rw [ht1, ht2]

theorem foldl_processSource_inv (srcs : List ChunkSource)
    (st : LocMap × List Addr) (hinv : locInv st) :
    locInv (srcs.foldl processSource st) := by
  induction srcs generalizing st with
  | nil => exact hinv
  | cons cs rest ih => exact ih _ (processSource_inv st cs hinv)

theorem foldl_processSource_finds (srcs : List ChunkSource)
    (st : LocMap × List Addr) (h : Addr) (hh : h ∈ st.2)
    (hex : ∃ cs ∈ srcs, (cs.findRange h).isSome = true) :
    ∃ t ∈ srcs.map ChunkSource.name,
      recordedAt (srcs.foldl processSource st).1 t h := by
  induction srcs generalizing st with
  | nil =>
    rcases hex with ⟨cs, hcs, -⟩
    cases hcs
  | cons cs0 rest ih =>
    by_cases hf : (cs0.findRange h).isSome = true
    · have hrec : recordedAt (processSource st cs0).1 cs0.name h :=
        (processSource_recordedAt st cs0 cs0.name h).mpr
          (Or.inr ⟨rfl, hh, hf⟩)
      exact ⟨cs0.name, by simp,
        foldl_processSource_mono rest _ cs0.name h hrec⟩
    · have hh2 : h ∈ (processSource st cs0).2 := by
        rw [processSource_hashes]
        refine List.mem_filter.mpr ⟨hh, ?_⟩
        cases hcr : cs0.findRange h with
        | none => simp
        | some r => exact absurd (by rw [hcr]; rfl) hf
      have hex2 : ∃ cs ∈ rest, (cs.findRange h).isSome = true := by
        rcases hex with ⟨cs, hcs, hcsf⟩
        rcases List.mem_cons.mp hcs with rfl | hmem
        · exact absurd hcsf hf
        · exact ⟨cs, hmem, hcsf⟩
      rcases ih _ hh2 hex2 with ⟨t, htm, htr⟩
      exact ⟨t, by simp only [List.map_cons]; exact List.mem_cons_of_mem _ htm, htr⟩

theorem foldl_processSource_hashes (srcs : List ChunkSource)
    (st : LocMap × List Addr) :
    (srcs.foldl processSource st).2
      = st.2.filter (fun h =>
          srcs.all (fun cs => (cs.findRange h).isNone)) := by
  induction srcs generalizing st with
  | nil => simp
  | cons cs0 rest ih =>
    simp only [List.foldl_cons]
    rw [ih, processSource_hashes, List.filter_filter]
    refine List.filter_congr (fun a ha => ?_)
    simp [List.all_cons, Bool.and_comm]

/-- **C10**: `GetChunkLocations` assigns each requested chunk hash to at
most one table in the returned map; a hash held by an upstream table is
assigned to an upstream table (upstream sources are probed before novel
ones); and every hash found in any source is deleted from the request
set, whose final value is returned. -/
theorem getChunkLocations_unique_assignment (nbs : NBS)
    (hashes : List Addr) :
    (∀ t1 t2 h, recordedAt (nbs.GetChunkLocations hashes).1 t1 h →
        recordedAt (nbs.GetChunkLocations hashes).1 t2 h → t1 = t2)
    ∧ (∀ h, h ∈ hashes →
        (∃ cs ∈ nbs.tables.upstream, (cs.findRange h).isSome = true) →
        ∃ t ∈ nbs.tables.upstream.map ChunkSource.name,
          recordedAt (nbs.GetChunkLocations hashes).1 t h)
    ∧ (nbs.GetChunkLocations hashes).2
      = hashes.filter (fun h =>
          (nbs.tables.upstream ++ nbs.tables.novel).all
            (fun cs => (cs.findRange h).isNone)) := by
  have hinv0 : locInv (([], hashes) : LocMap × List Addr) := by
    constructor
    · intro t h hr
      rcases hr with ⟨y, hy, -⟩
      simp [lookupA] at hy
    · intro t1 t2 h hr1 hr2
      rcases hr1 with ⟨y, hy, -⟩
      simp [lookupA] at hy
  refine ⟨?_, ?_, ?_⟩
  · intro t1 t2 h hr1 hr2
    unfold NBS.GetChunkLocations at hr1 hr2
    exact (foldl_processSource_inv nbs.tables.novel _
      (foldl_processSource_inv nbs.tables.upstream _ hinv0)).2 t1 t2 h hr1 hr2
  · intro h hh hex
    rcases foldl_processSource_finds nbs.tables.upstream ([], hashes) h hh hex
      with ⟨t, htm, htr⟩
    exact ⟨t, htm, foldl_processSource_mono nbs.tables.novel _ t h htr⟩
  · unfold NBS.GetChunkLocations
    rw [foldl_processSource_hashes, foldl_processSource_hashes,
      List.filter_filter]
    refine List.filter_congr (fun a ha => ?_)
    simp [List.all_append, Bool.and_comm]
